import Mathlib

/-!
Verification of the perps-keepers core against its specification.

The development shallowly embeds the three source files:
* `src/src/keeper.js` — the `Keeper` class: event-driven position index
  (`updateIndex`), the task scheduler (`runKeeperTask`, `runKeepers`),
  the transaction submitter (`liquidateOrder`), and the block listener /
  FIFO drain loop (`run`).  Embedded in namespace `Keeper`.
* `src/unnamed/part_000` — the paginated, batched on-chain read engine
  (`getAddressLengthByMarket`, `getPositionsByAddresses`,
  `getOrdersByAddresses`).  Embedded in namespace `Utils`.

JavaScript objects used as string-keyed records are embedded as ordered
association lists: assignment to an existing key overwrites it in place,
assignment to a fresh key appends at the end, and `delete` removes the
entry — exactly the enumeration-order semantics of JS objects, which the
code observes through `Object.values` / `Object.keys`.
-/

/-- Lookup in a JS-object-like association list (first matching key). -/
def lookupList : List (String × α) → String → Option α
  | [], _ => none
  | p :: ps, k => if p.1 = k then some p.2 else lookupList ps k

/-- JS `obj[k] = v`: overwrite in place when `k` is present, otherwise
append `(k, v)` at the end (insertion order). -/
def setKey : List (String × α) → String → α → List (String × α)
  | [], k, v => [(k, v)]
  | p :: ps, k, v => if p.1 = k then (k, v) :: ps else p :: setKey ps k v

/-- JS `delete obj[k]`: remove every entry with key `k` (at most one is
present in states the code actually builds). -/
def delKey : List (String × α) → String → List (String × α)
  | [], _ => []
  | p :: ps, k => if p.1 = k then delKey ps k else p :: delKey ps k

namespace Keeper

/-- Index entry stored by `Keeper.updateIndex` on a nonzero-size
`PositionModified` event (`keeper.js` lines 183–188): exactly the fields
`id`, `event`, `account`, `size` — nothing else. -/
structure Position where
  id : Nat
  event : String
  account : String
  size : Int
deriving DecidableEq, Repr

/-- Decoded chain events consumed by `updateIndex` (`keeper.js` 166–213).
The `PositionModified` chain event also carries trade data beyond the
three fields the handler destructures; `margin` and `lastPrice` are kept
here to record that the handler ignores them. -/
inductive Event where
  | positionModified (id : Nat) (account : String) (size margin lastPrice : Int)
  | positionLiquidated (account liquidator : String)
  | fundingRecomputed
  | other (name : String)
deriving DecidableEq, Repr

/-- One iteration of the `events.forEach` body of `Keeper.updateIndex`
(`keeper.js` 166–213), acting on `this.positions`. -/
def applyEvent (positions : List (String × Position)) : Event → List (String × Position)
  | .positionModified id account size _margin _lastPrice =>
    if size = 0 then
      -- Position has been closed.
      delKey positions account
    else
      setKey positions account ⟨id, "PositionModified", account, size⟩
  | .positionLiquidated account _liquidator => delKey positions account
  | .fundingRecomputed => positions
  | .other _ => positions

/-- `Keeper.updateIndex(events)`: fold the handler over the event list. -/
def updateIndex (positions : List (String × Position)) (events : List Event) :
    List (String × Position) :=
  events.foldl applyEvent positions

/-- Metric emissions observed by the model (metrics sink is external). -/
inductive MetricEvent where
  | openPositionsGauge (n : Nat)
  | liquidationOutcome (success : Bool)
  | keeperError
deriving DecidableEq, Repr

/-- Result of the transaction-submission attempt inside
`signerPool.withSigner` as seen by `liquidateOrder`'s `try`/`catch`. -/
inductive SubmitOutcome where
  | confirmed
  | errorWith (code : Option String)
deriving DecidableEq, Repr

/-- Environment a single `liquidateOrder(id, account)` call runs in:
the answer of the read-only `canLiquidate` probe and the outcome of the
submission, both external chain interactions. -/
structure TaskEnv where
  canLiquidate : Bool
  submit : SubmitOutcome
deriving DecidableEq, Repr

/-- Control outcome of `liquidateOrder`: normal return, an exception
re-raised to the caller, or `process.exit`. -/
inductive LiqResult where
  | returned
  | raised
  | exited (code : Int)
deriving DecidableEq, Repr

def NONCE_EXPIRED : String := "NONCE_EXPIRED"

/-- `Keeper.liquidateOrder` (`keeper.js` 275–335): probe `canLiquidate`
and return if ineligible; on submission success record a success metric;
on submission error record a failure metric, then `process.exit(-1)` when
the ethers error code is `NONCE_EXPIRED`, otherwise re-raise. -/
def liquidateOrder (env : TaskEnv) : LiqResult × List MetricEvent :=
  if !env.canLiquidate then (.returned, [])
  else
    match env.submit with
    | .confirmed => (.returned, [.liquidationOutcome true])
    | .errorWith code =>
      if code = some NONCE_EXPIRED then
        -- We can't recover from this one yet, restart.
        (.exited (-1), [.liquidationOutcome false])
      else
        (.raised, [.liquidationOutcome false])

/-- How a `runKeeperTask` call ended. -/
inductive TaskRun where
  | skipped
  | completed
  | exitedWith (code : Int)
deriving DecidableEq, Repr

/-- Observable outcome of one `runKeeperTask` call: whether the action
was invoked, the running-set while the action was in flight, the
running-set on return, the control outcome and the metrics emitted. -/
structure TaskResult where
  invoked : Bool
  activeDuring : List Nat
  activeAfter : List Nat
  run : TaskRun
  metrics : List MetricEvent
deriving DecidableEq, Repr

/-- `Keeper.runKeeperTask(id, taskLabel, cb)` (`keeper.js` 250–273) over
the running-set `this.activeKeeperTasks` (membership only): if `id` is
already active, return at once without invoking `cb`; otherwise mark `id`
active, invoke `cb` — any exception is caught, logged and counted — and
finally delete `id`.  `process.exit` inside `cb` is not an exception:
it terminates the process, so the final delete never runs in that case.
The action `act` is represented by its outcome. -/
def runKeeperTask (active : List Nat) (id : Nat) (act : LiqResult × List MetricEvent) :
    TaskResult :=
  if id ∈ active then
    -- Skip task as its already running.
    ⟨false, active, active, .skipped, []⟩
  else
    let during := id :: active
    match act with
    | (.returned, ms) => ⟨true, during, during.erase id, .completed, ms⟩
    | (.raised, ms) => ⟨true, during, during.erase id, .completed, ms ++ [.keeperError]⟩
    | (.exited c, ms) => ⟨true, during, during, .exitedWith c, ms⟩

/-- Serial loop body of `Keeper.runKeepers` (`keeper.js` 243–247): for each
indexed position, run the liquidation task; `process.exit` inside a task
terminates the whole pass (and process) immediately. -/
def runKeepersGo (env : String → TaskEnv) :
    List Position → List Nat → List MetricEvent → List Nat × Option Int × List MetricEvent
  | [], active, ms => (active, none, ms)
  | p :: ps, active, ms =>
    let r := runKeeperTask active p.id (liquidateOrder (env p.account))
    match r.run with
    | .exitedWith c => (r.activeAfter, some c, ms ++ r.metrics)
    | _ => runKeepersGo env ps r.activeAfter (ms ++ r.metrics)

/-- `Keeper.runKeepers` (`keeper.js` 215–248): report the index size as a
gauge, then offer every position of the index (in `Object.values` order)
to `runKeeperTask` serially.  Returns the final running-set, the exit
code if the process terminated mid-pass, and the emitted metrics. -/
def runKeepers (env : String → TaskEnv) (positions : List (String × Position))
    (active : List Nat) : List Nat × Option Int × List MetricEvent :=
  runKeepersGo env (positions.map Prod.snd) active [.openPositionsGauge positions.length]

/-- Block-drain loop of `Keeper.run` (`keeper.js` 124–132) composed with
`processNewBlock` (135–164): each queued block's events are applied to
the index, then one scheduler pass runs.  The returned trace holds one
entry per executed pass — `none` for a pass that completed, `some c`
for a pass during which the process exited with code `c`; the loop (and
the process) stops at such a pass. -/
def driveBlocks (env : String → TaskEnv) :
    List (List Event) → List (String × Position) → List Nat → List (Option Int)
  | [], _, _ => []
  | b :: bs, s, active =>
    let s' := updateIndex s b
    let r := runKeepers env s' active
    match r.2.1 with
    | some c => [some c]
    | none => none :: driveBlocks env bs s' r.1

/-- State of the block listener registered by `Keeper.run`
(`keeper.js` 110–119): the recorded tip and the FIFO block queue. -/
structure ListenerState where
  blockTip : Option Nat
  blockQueue : List Nat
deriving DecidableEq, Repr

/-- JavaScript truthiness of `this.blockTip`: `null` (here `none`) and
`0` are both falsy. -/
def blockTipFalsy : Option Nat → Bool
  | none => true
  | some t => t = 0

/-- The `provider.on("block", ...)` handler (`keeper.js` 110–119): while
the tip is falsy, only record the tip and return; otherwise append the
block number to the FIFO queue. -/
def onBlock (s : ListenerState) (blockNumber : Nat) : ListenerState :=
  if blockTipFalsy s.blockTip then
    -- Don't process the first block we see.
    { s with blockTip := some blockNumber }
  else
    { s with blockQueue := s.blockQueue ++ [blockNumber] }

/-- Modelled from the spec: the spec's §3 data model derives a position's
leverage from its size, entry price and margin (`|size| * lastPrice /
margin`, the formula the backfill decoder in `part_000` uses).  This
definition exists only to state what a "recomputed leverage" would be;
`Keeper.updateIndex` itself stores no such field. -/
def specLeverage (size margin lastPrice : Int) : Int :=
  (size.natAbs : Int) * lastPrice / margin

end Keeper

namespace Utils

def MAX_ADDRESS_PAGE_SIZE : Nat := 1000
def MAX_ADDRESS_PAGE_CALLS : Nat := 100
def MAX_ENTITY_PAGE_CALLS : Nat := 500

/-- Page descriptor produced by the pagination helper.  The source fields
are named `from`/`to`/`size`; `from` is a Lean keyword, hence `pFrom` /
`pTo` here. -/
structure Pagination where
  pFrom : Nat
  pTo : Nat
  size : Nat
deriving DecidableEq, Repr

/-- Fuel-indexed body of the pagination helper; `fuel` only bounds the
recursion depth (one unit per emitted page), every call supplies enough. -/
def gpftAux (sz : Nat) : Nat → Nat → Nat → List Pagination
  | 0, _, _ => []
  | fuel + 1, f, t =>
    if sz = 0 ∨ t ≤ f then []
    else
      ⟨f, min (f + sz) t, min (f + sz) t - f⟩ :: gpftAux sz fuel (min (f + sz) t) t

/-- Modelled from the spec: `getPaginatedFromAndTo` is imported from
`./keepers/helpers`, a file not included in the sources.  Per spec §4.1,
`computePages(count, maxPageSize)` is the deterministic ordered list of
page descriptors covering `[from, to)` exactly, each page of size at most
`sz`, the last page holding the remainder. -/
def getPaginatedFromAndTo (f t sz : Nat) : List Pagination :=
  gpftAux sz (t - f) f t

/-- Fuel-indexed body of `chunkList`; `fuel` only bounds the recursion
depth (the list shrinks by at least one element per step). -/
def chunkListAux (n : Nat) : Nat → List α → List (List α)
  | _, [] => []
  | 0, _ :: _ => []
  | fuel + 1, x :: xs =>
    if n = 0 then [] else (x :: xs).take n :: chunkListAux n fuel ((x :: xs).drop n)

/-- Lodash `chunk(xs, n)`: split `xs` into consecutive slices of length
`n` (last one shorter); `chunk(xs, 0)` is `[]`. -/
def chunkList (n : Nat) (xs : List α) : List (List α) :=
  chunkListAux n xs.length xs

/-- JS `acc[k] = (acc[k] ?? []).concat([v])`: append `v` to the list held
at key `k`, creating the key at the end of the record when absent. -/
def pushKey (acc : List (String × List α)) (k : String) (v : α) : List (String × List α) :=
  setKey acc k (((lookupList acc k).getD []) ++ [v])

/-- JS `record[k] ?? []`: the list a record holds at key `k`. -/
def valuesOf (l : List (String × List α)) (k : String) : List α :=
  (lookupList l k).getD []

/-- Flattening step shared by `getPositionsByAddresses` (part_000
276–278) and `getOrdersByAddresses` (393–396): pair every address with
its market key, in market order then address order. -/
def flattenAddresses (addressesByMarket : List (String × List String)) :
    List (String × String) :=
  addressesByMarket.flatMap fun p => p.2.map fun a => (a, p.1)

/-- Multicall batching skeleton shared verbatim by
`getPositionsByAddresses` (part_000 283–321) and `getOrdersByAddresses`
(401–431): chunk the flattened (address, marketKey) pairs into batches of
at most `MAX_ENTITY_PAGE_CALLS`, issue one aggregate call per batch (the
aggregate answers positionally, embedded as the oracle inside `g`), and
fold each batch's decoded results into the per-market record; `g`
returns `none` when a result is dropped (the `isOffchain` filter). -/
def runEntityBatches (g : String × String → Option E) (flattened : List (String × String)) :
    List (String × List E) :=
  (chunkList MAX_ENTITY_PAGE_CALLS flattened).foldl
    (fun acc batch =>
      batch.foldl
        (fun acc2 pr =>
          match g pr with
          | some v => pushKey acc2 pr.2 v
          | none => acc2)
        acc)
    []

/-- Raw `positions(address)` return value decoded from the state
contract (fields the decoder reads).  The `wei` 18-decimal fixed-point
scaling and float conversion are abstracted: fields carry the raw
integer quantities. -/
structure PositionResp where
  id : Nat
  size : Int
  margin : Int
  lastPrice : Int
deriving DecidableEq, Repr

/-- Decoded `Position` of part_000 (303–317). -/
structure Position where
  account : String
  id : Nat
  size : Int
  leverage : Int
  liqPrice : Int
  liqPriceUpdatedTimestamp : Nat
deriving DecidableEq, Repr

/-- Decoder body of `getPositionsByAddresses` (part_000 303–317):
`leverage = |size| * lastPrice / margin`, `liqPrice` is the `-1`
sentinel, timestamp is the pinned block's. -/
def decodePosition (address : String) (r : PositionResp) (blockTimestamp : Nat) : Position :=
  { account := address
    id := r.id
    size := r.size
    leverage := (r.size.natAbs : Int) * r.lastPrice / r.margin
    liqPrice := -1
    liqPriceUpdatedTimestamp := blockTimestamp }

/-- `getPositionsByAddresses` (part_000 267–324): flatten the per-market
address lists, batch them through the multicall aggregate, and decode
every result into the per-market `Position` record.  `fetch address
marketKey` is the positional aggregate answer for that call. -/
def getPositionsByAddresses (addressesByMarket : List (String × List String))
    (fetch : String → String → PositionResp) (blockTimestamp : Nat) :
    List (String × List Position) :=
  runEntityBatches
    (fun pr => some (decodePosition pr.1 (fetch pr.1 pr.2) blockTimestamp))
    (flattenAddresses addressesByMarket)

/-- Raw `delayedOrders(address)` return value (fields the decoder reads). -/
structure DelayedOrderResp where
  isOffchain : Bool
  executableAtTime : Nat
  intentionTime : Nat
deriving DecidableEq, Repr

/-- Decoded `DelayedOrder` of part_000 (422–427). -/
structure DelayedOrder where
  account : String
  executableAtTime : Nat
  intentionTime : Nat
  executionFailures : Nat
deriving DecidableEq, Repr

def decodeDelayedOrder (address : String) (r : DelayedOrderResp) : DelayedOrder :=
  { account := address
    executableAtTime := r.executableAtTime
    intentionTime := r.intentionTime
    executionFailures := 0 }

/-- `getOrdersByAddresses` (part_000 385–434): same batching skeleton;
only results flagged `isOffchain` are kept. -/
def getOrdersByAddresses (addressesByMarket : List (String × List String))
    (fetch : String → String → DelayedOrderResp) :
    List (String × List DelayedOrder) :=
  runEntityBatches
    (fun pr =>
      let r := fetch pr.1 pr.2
      if r.isOffchain then some (decodeDelayedOrder pr.1 r) else none)
    (flattenAddresses addressesByMarket)

/-- `getAddressLengthByMarket` (part_000 166–207): one aggregate call
reads every market's count (returned positionally: `count mk` is the
decoded answer for market `mk`, pinned at the block); markets whose
count is zero are not written into the result record. -/
def getAddressLengthByMarket (marketKeys : List String) (count : String → Nat) :
    List (String × Nat) :=
  marketKeys.foldl
    (fun acc mk =>
      -- Avoid processing markets that have no positions.
      if 0 < count mk then setKey acc mk (count mk) else acc)
    []

end Utils

/-! ## Association-list lemmas -/

theorem lookupList_setKey (l : List (String × α)) (k : String) (v : α) (k' : String) :
    lookupList (setKey l k v) k' = if k = k' then some v else lookupList l k' := by
  induction l with
  | nil => by_cases h : k = k' <;> simp [setKey, lookupList, h]
  | cons p ps ih =>
    by_cases h1 : p.1 = k
    · subst h1
      by_cases h2 : p.1 = k' <;> simp [setKey, lookupList, h2]
    · by_cases h2 : p.1 = k'
      · have hkk : ¬ k = k' := fun h => h1 (h ▸ h2)
        have hkk' : ¬ k' = k := fun h => hkk h.symm
        simp [setKey, lookupList, h1, h2, hkk, hkk']
      · simp [setKey, lookupList, h1, h2, ih]

theorem lookupList_delKey_self (l : List (String × α)) (k : String) :
    lookupList (delKey l k) k = none := by
  induction l with
  | nil => simp [delKey, lookupList]
  | cons p ps ih =>
    by_cases h : p.1 = k <;> simp [delKey, lookupList, h, ih]

theorem delKey_of_lookup_none (l : List (String × α)) (k : String)
    (h : lookupList l k = none) : delKey l k = l := by
  induction l with
  | nil => simp [delKey]
  | cons p ps ih =>
    by_cases hp : p.1 = k
    · simp [lookupList, hp] at h
    · simp [lookupList, hp] at h
      simp [delKey, hp, ih h]

theorem setKey_of_not_mem (l : List (String × α)) (k : String) (v : α)
    (h : k ∉ l.map Prod.fst) : setKey l k v = l ++ [(k, v)] := by
  induction l with
  | nil => simp [setKey]
  | cons p ps ih =>
    simp only [List.map_cons, List.mem_cons, not_or] at h
    have hp : ¬ p.1 = k := fun hh => h.1 hh.symm
    simp [setKey, hp, ih h.2]

namespace Keeper

/-! ## Scheduler and submitter claims -/

/-- C1: If `id` is already in the running-set, `runKeeperTask` returns
immediately without invoking the action; otherwise it marks `id` active
for exactly the duration of the single invocation and — whenever the
action returns or throws (is caught) — removes `id` again as the final
step, restoring the original running-set.  The only path that skips the
cleanup is `process.exit`, which ends the process and never returns. -/
theorem runKeeperTask_mutual_exclusion (active : List Nat) (id : Nat)
    (act : LiqResult × List MetricEvent) :
    (id ∈ active → runKeeperTask active id act = ⟨false, active, active, .skipped, []⟩)
    ∧ (id ∉ active →
        (runKeeperTask active id act).invoked = true
        ∧ (runKeeperTask active id act).activeDuring = id :: active
        ∧ id ∈ (runKeeperTask active id act).activeDuring
        ∧ ((∀ c, act.1 ≠ .exited c) → (runKeeperTask active id act).activeAfter = active)) := by
  constructor
  · intro h
    simp [runKeeperTask, h]
  · intro h
    obtain ⟨r, ms⟩ := act
    cases r with
    | returned => simp [runKeeperTask, h, List.erase_cons_head]
    | raised => simp [runKeeperTask, h, List.erase_cons_head]
    | exited c =>
      refine ⟨by simp [runKeeperTask, h], by simp [runKeeperTask, h],
              by simp [runKeeperTask, h], fun hc => absurd rfl (hc c)⟩

/-- C1 witness: a concrete skipped call and a concrete completed call. -/
theorem runKeeperTask_mutual_exclusion_w :
    Keeper.runKeeperTask [7] 7 (.raised, []) = ⟨false, [7], [7], .skipped, []⟩
    ∧ ((Keeper.runKeeperTask [] 3 (.raised, [])).invoked = true
       ∧ (Keeper.runKeeperTask [] 3 (.raised, [])).activeDuring = 3 :: []
       ∧ 3 ∈ (Keeper.runKeeperTask [] 3 (.raised, [])).activeDuring
       ∧ (Keeper.runKeeperTask [] 3 (.raised, [])).activeAfter = []) :=
  ⟨(runKeeperTask_mutual_exclusion [7] 7 (.raised, [])).1 (by decide),
   (runKeeperTask_mutual_exclusion [] 3 (.raised, [])).2 (by decide) |>.imp_right
     (fun h => ⟨h.1, h.2.1, h.2.2 (fun _ h' => LiqResult.noConfusion h')⟩)⟩

/-- C3 counterexample: the index state after a nonzero-size
`PositionModified` event is identical for two events whose
spec-recomputed leverages differ (`|5| * 100 / 10 = 50` versus
`|5| * 200 / 10 = 100`), so the stored entry cannot contain a recomputed
leverage: `updateIndex` stores exactly `id`, the event name, `account`
and `size`. -/
theorem updateIndex_stores_no_leverage :
    applyEvent [] (.positionModified 1 "A" 5 10 100)
      = applyEvent [] (.positionModified 1 "A" 5 10 200)
    ∧ specLeverage 5 10 100 ≠ specLeverage 5 10 200 := by
  constructor
  · rfl
  · decide

/-- C3 (amended): a `PositionModified(account, size)` event with
`size == 0` removes the account's entry; with `size != 0` it inserts or
overwrites the entry with the new size (the stored entry carries the id,
event name, account and size; no leverage is recomputed), and
`[PositionModified(A, 5), PositionModified(A, 0)]` on the empty index
leaves no entry for A. -/
theorem updateIndex_positionModified (positions : List (String × Position)) (id : Nat)
    (account : String) (size margin lastPrice : Int) :
    (size = 0 →
      lookupList (applyEvent positions (.positionModified id account size margin lastPrice))
        account = none)
    ∧ (size ≠ 0 →
      lookupList (applyEvent positions (.positionModified id account size margin lastPrice))
        account = some ⟨id, "PositionModified", account, size⟩)
    ∧ lookupList
        (updateIndex [] [.positionModified 1 "A" 5 0 0, .positionModified 1 "A" 0 0 0]) "A"
        = none := by
  refine ⟨?_, ?_, by decide⟩
  · intro h
    simp [applyEvent, h, lookupList_delKey_self]
  · intro h
    simp [applyEvent, h, lookupList_setKey]

/-- C3 witness: both branches at concrete inputs. -/
theorem updateIndex_positionModified_w :
    lookupList
        (Keeper.applyEvent [("A", ⟨1, "PositionModified", "A", 5⟩)]
          (.positionModified 1 "A" 0 0 0)) "A" = none
    ∧ lookupList (Keeper.applyEvent [] (.positionModified 1 "A" 5 0 0)) "A"
        = some ⟨1, "PositionModified", "A", 5⟩ :=
  ⟨(updateIndex_positionModified [("A", ⟨1, "PositionModified", "A", 5⟩)] 1 "A" 0 0 0).1 rfl,
   (updateIndex_positionModified [] 1 "A" 5 0 0).2.1 (by decide)⟩

/-- C9: a `PositionLiquidated(account)` event unconditionally removes the
account's entry, and on an index with no entry for the account it is a
no-op: the index is returned unchanged (the handler is total — no
error). -/
theorem updateIndex_positionLiquidated (positions : List (String × Position))
    (account liquidator : String) :
    lookupList (applyEvent positions (.positionLiquidated account liquidator)) account = none
    ∧ (lookupList positions account = none →
        applyEvent positions (.positionLiquidated account liquidator) = positions) := by
  refine ⟨?_, ?_⟩
  · simp [applyEvent, lookupList_delKey_self]
  · intro h
    simp [applyEvent, delKey_of_lookup_none _ _ h]

/-- C9 witness: liquidating A on an index holding only B. -/
theorem updateIndex_positionLiquidated_w :
    lookupList
        (Keeper.applyEvent [("B", ⟨2, "PositionModified", "B", 3⟩)]
          (.positionLiquidated "A" "L")) "A" = none
    ∧ Keeper.applyEvent [("B", ⟨2, "PositionModified", "B", 3⟩)]
        (.positionLiquidated "A" "L") = [("B", ⟨2, "PositionModified", "B", 3⟩)] :=
  ⟨(updateIndex_positionLiquidated [("B", ⟨2, "PositionModified", "B", 3⟩)] "A" "L").1,
   (updateIndex_positionLiquidated [("B", ⟨2, "PositionModified", "B", 3⟩)] "A" "L").2
     (by decide)⟩

/-- C8: applying the same event list twice is not idempotent.  Entry
values are absolute (set/delete), but the enumeration order of the JS
positions object — which fixes the order `runKeepers` offers tasks — can
differ: re-applying `[PM(B, 1), Liq(B), PM(B, 2), PM(A, 5)]` moves B
behind A. -/
theorem updateIndex_not_idempotent :
    ∃ (s : List (String × Keeper.Position)) (l : List Keeper.Event),
      Keeper.updateIndex (Keeper.updateIndex s l) l ≠ Keeper.updateIndex s l := by
  refine ⟨[], [.positionModified 1 "B" 1 0 0, .positionLiquidated "B" "L",
               .positionModified 1 "B" 2 0 0, .positionModified 2 "A" 5 0 0], ?_⟩
  decide

/-- C10: the first block notification after the keeper starts listening
only records the tip and enqueues nothing; the second notification is
the first to reach the FIFO processing queue.  (The truthiness test the
handler uses also treats a recorded tip of `0` as unset; block numbers
are positive, hypothesis `0 < n1`.) -/
theorem onBlock_first_only_records (n1 n2 : Nat) (h : 0 < n1) :
    Keeper.onBlock ⟨none, []⟩ n1 = ⟨some n1, []⟩
    ∧ Keeper.onBlock (Keeper.onBlock ⟨none, []⟩ n1) n2 = ⟨some n1, [n2]⟩ := by
  have hne : n1 ≠ 0 := Nat.pos_iff_ne_zero.mp h
  constructor
  · simp [onBlock, blockTipFalsy]
  · simp [onBlock, blockTipFalsy, hne]

/-- C10 witness: blocks 100 then 101. -/
theorem onBlock_first_only_records_w :
    Keeper.onBlock ⟨none, []⟩ 100 = ⟨some 100, []⟩
    ∧ Keeper.onBlock (Keeper.onBlock ⟨none, []⟩ 100) 101 = ⟨some 100, [101]⟩ :=
  onBlock_first_only_records 100 101 (by decide)

/-- C5: a non-fatal submission error is recorded as a failed outcome and
re-raised by the submitter; the scheduler contains it — the task
completes, the error is counted, the running-set is restored, nothing
propagates out of `runKeeperTask`.  A fatal sequencing error instead
propagates past the containment: the process halts with `-1`. -/
theorem submitter_error_containment (code : Option String) (active : List Nat) (id : Nat)
    (hcode : code ≠ some NONCE_EXPIRED) (hid : id ∉ active) :
    liquidateOrder ⟨true, .errorWith code⟩ = (.raised, [.liquidationOutcome false])
    ∧ (runKeeperTask active id (liquidateOrder ⟨true, .errorWith code⟩)).run = .completed
    ∧ (runKeeperTask active id (liquidateOrder ⟨true, .errorWith code⟩)).activeAfter = active
    ∧ (runKeeperTask active id (liquidateOrder ⟨true, .errorWith code⟩)).metrics
        = [.liquidationOutcome false, .keeperError]
    ∧ (runKeeperTask active id
        (liquidateOrder ⟨true, .errorWith (some NONCE_EXPIRED)⟩)).run = .exitedWith (-1) := by
  have h1 : liquidateOrder ⟨true, .errorWith code⟩ = (.raised, [.liquidationOutcome false]) := by
    simp [liquidateOrder, hcode]
  have h2 : liquidateOrder ⟨true, .errorWith (some NONCE_EXPIRED)⟩
      = (.exited (-1), [.liquidationOutcome false]) := by
    simp [liquidateOrder]
  refine ⟨h1, ?_, ?_, ?_, ?_⟩ <;>
    simp [h1, h2, runKeeperTask, hid, List.erase_cons_head]

/-- C5 witness: an `UNPREDICTABLE_GAS_LIMIT` error at an idle scheduler. -/
theorem submitter_error_containment_w :
    Keeper.liquidateOrder ⟨true, .errorWith (some "UNPREDICTABLE_GAS_LIMIT")⟩
        = (.raised, [.liquidationOutcome false])
    ∧ (Keeper.runKeeperTask [] 5
        (Keeper.liquidateOrder ⟨true, .errorWith (some "UNPREDICTABLE_GAS_LIMIT")⟩)).run
        = .completed
    ∧ (Keeper.runKeeperTask [] 5
        (Keeper.liquidateOrder ⟨true, .errorWith (some "UNPREDICTABLE_GAS_LIMIT")⟩)).activeAfter
        = []
    ∧ (Keeper.runKeeperTask [] 5
        (Keeper.liquidateOrder ⟨true, .errorWith (some "UNPREDICTABLE_GAS_LIMIT")⟩)).metrics
        = [.liquidationOutcome false, .keeperError]
    ∧ (Keeper.runKeeperTask [] 5
        (Keeper.liquidateOrder ⟨true, .errorWith (some Keeper.NONCE_EXPIRED)⟩)).run
        = .exitedWith (-1) :=
  submitter_error_containment (some "UNPREDICTABLE_GAS_LIMIT") [] 5 (by decide) (by decide)

/-- Helper: `runKeeperTask` reports `exitedWith c` only when the action
itself exited with `c`. -/
theorem runKeeperTask_run_exited (active : List Nat) (id : Nat)
    (act : LiqResult × List MetricEvent) (c : Int)
    (h : (runKeeperTask active id act).run = .exitedWith c) : act.1 = .exited c := by
  by_cases hm : id ∈ active
  · simp [runKeeperTask, hm] at h
  · obtain ⟨r, ms⟩ := act
    cases r <;> simp_all [runKeeperTask, hm]

/-- Helper: `liquidateOrder` only ever exits the process with status `-1`,
and only on a `NONCE_EXPIRED` submission error. -/
theorem liquidateOrder_exited (e : TaskEnv) (c : Int)
    (h : (liquidateOrder e).1 = .exited c) :
    c = -1 ∧ e.canLiquidate = true ∧ e.submit = .errorWith (some NONCE_EXPIRED) := by
  obtain ⟨cl, sub⟩ := e
  cases cl with
  | false => simp [liquidateOrder] at h
  | true =>
    cases sub with
    | confirmed => simp [liquidateOrder] at h
    | errorWith code =>
      by_cases hc : code = some NONCE_EXPIRED
      · subst hc
        simp [liquidateOrder] at h
        simp [← h]
      · simp [liquidateOrder, hc] at h

/-- Helper: a scheduler pass reports an exit code only when a task's
submission hit the fatal sequencing error, and that code is `-1`. -/
theorem runKeepersGo_exit (env : String → TaskEnv) :
    ∀ (ps : List Position) (active : List Nat) (ms : List MetricEvent) (c : Int),
      (runKeepersGo env ps active ms).2.1 = some c → c = -1 := by
  intro ps
  induction ps with
  | nil => intro active ms c h; simp [runKeepersGo] at h
  | cons p ps ih =>
    intro active ms c h
    rw [runKeepersGo] at h
    split at h
    · rename_i c' heq
      simp at h
      subst h
      exact (liquidateOrder_exited _ _ (runKeeperTask_run_exited _ _ _ _ heq)).1
    · exact ih _ _ _ h

/-- Helper: same fact lifted to `runKeepers`. -/
theorem runKeepers_exit (env : String → TaskEnv) (positions : List (String × Position))
    (active : List Nat) (c : Int) (h : (runKeepers env positions active).2.1 = some c) :
    c = -1 :=
  runKeepersGo_exit env _ _ _ _ h

/-- C4: once a transaction submission fails with the fatal sequencing
error (`NONCE_EXPIRED`), the process exits with the non-zero status `-1`,
exactly once — the block-drain trace contains at most one exit entry,
every exit entry carries status `-1 ≠ 0`, and an exiting pass is the
final pass of the trace: no scheduling pass runs afterwards. -/
theorem fatal_sequencing_halts (env : String → TaskEnv) (blocks : List (List Event))
    (s : List (String × Position)) (active : List Nat) :
    (∀ e : TaskEnv, e.canLiquidate = true → e.submit = .errorWith (some NONCE_EXPIRED) →
        (liquidateOrder e).1 = .exited (-1))
    ∧ ((driveBlocks env blocks s active).filter Option.isSome).length ≤ 1
    ∧ (∀ i c, (driveBlocks env blocks s active).get? i = some (some c) →
        c = -1 ∧ c ≠ 0 ∧ i + 1 = (driveBlocks env blocks s active).length) := by
  refine ⟨?_, ?_, ?_⟩
  · intro e h1 h2
    obtain ⟨cl, sub⟩ := e
    simp at h1 h2
    subst h1; subst h2
    simp [liquidateOrder]
  · induction blocks generalizing s active with
    | nil => simp [driveBlocks]
    | cons b bs ih =>
      rw [driveBlocks]
      split
      · simp
      · simpa using ih _ _
  · induction blocks generalizing s active with
    | nil => intro i c h; simp [driveBlocks] at h
    | cons b bs ih =>
      intro i c h
      cases hx : (runKeepers env (updateIndex s b) active).2.1 with
      | some c' =>
        have htr : driveBlocks env (b :: bs) s active = [some c'] := by
          simp only [driveBlocks]
          rw [hx]
        rw [htr] at h ⊢
        cases i with
        | zero =>
          simp at h
          have hc := runKeepers_exit env _ _ _ hx
          subst h
          exact ⟨hc, by omega, by simp⟩
        | succ j => simp [List.get?] at h
      | none =>
        have htr : driveBlocks env (b :: bs) s active
            = none :: driveBlocks env bs (updateIndex s b)
                (runKeepers env (updateIndex s b) active).1 := by
          simp only [driveBlocks]
          rw [hx]
        rw [htr] at h ⊢
        cases i with
        | zero => simp [List.get?] at h
        | succ j =>
          simp only [List.get?] at h
          have hj := ih _ _ j c h
          exact ⟨hj.1, hj.2.1, by simp only [List.length_cons]; omega⟩

/-- C4 witness: a single indexed position whose submission hits
`NONCE_EXPIRED`: the one-block trace is a single exiting pass with
status `-1`. -/
theorem fatal_sequencing_halts_w :
    (Keeper.liquidateOrder ⟨true, .errorWith (some Keeper.NONCE_EXPIRED)⟩).1 = .exited (-1)
    ∧ ((Keeper.driveBlocks (fun _ => ⟨true, .errorWith (some Keeper.NONCE_EXPIRED)⟩)
        [[.positionModified 1 "A" 5 0 0]] [] []).filter Option.isSome).length ≤ 1
    ∧ ((-1 : Int) = -1 ∧ (-1 : Int) ≠ 0
       ∧ 0 + 1 = (Keeper.driveBlocks (fun _ => ⟨true, .errorWith (some Keeper.NONCE_EXPIRED)⟩)
          [[.positionModified 1 "A" 5 0 0]] [] []).length) :=
  ⟨(fatal_sequencing_halts (fun _ => ⟨true, .errorWith (some Keeper.NONCE_EXPIRED)⟩)
      [[.positionModified 1 "A" 5 0 0]] [] []).1 ⟨true, .errorWith (some Keeper.NONCE_EXPIRED)⟩
      rfl rfl,
   (fatal_sequencing_halts (fun _ => ⟨true, .errorWith (some Keeper.NONCE_EXPIRED)⟩)
      [[.positionModified 1 "A" 5 0 0]] [] []).2.1,
   (fatal_sequencing_halts (fun _ => ⟨true, .errorWith (some Keeper.NONCE_EXPIRED)⟩)
      [[.positionModified 1 "A" 5 0 0]] [] []).2.2 0 (-1) (by decide)⟩

end Keeper

namespace Utils

/-! ## Pagination lemmas -/

/-- Helper: the pages of `gpftAux` concatenate to exactly the interval
`[f, t)` whenever the fuel covers `t - f`. -/
theorem gpftAux_flatten (sz : Nat) (hsz : 0 < sz) :
    ∀ (fuel f t : Nat), t - f ≤ fuel →
    ((gpftAux sz fuel f t).map fun p => List.range' p.pFrom p.size).flatten
      = List.range' f (t - f) := by
  intro fuel
  induction fuel with
  | zero =>
    intro f t hn
    have h0 : t - f = 0 := by omega
    simp [gpftAux, h0]
  | succ n ih =>
    intro f t hn
    by_cases ht : t ≤ f
    · have h0 : t - f = 0 := by omega
      have hc : sz = 0 ∨ t ≤ f := Or.inr ht
      simp [gpftAux, hc, h0]
    · have hcond : ¬ (sz = 0 ∨ t ≤ f) := by omega
      rw [gpftAux, if_neg hcond]
      simp only [List.map_cons, List.flatten_cons]
      rw [ih (min (f + sz) t) t (by omega)]
      have hkey := List.range'_append f (min (f + sz) t - f) (t - min (f + sz) t) 1
      rw [show f + 1 * (min (f + sz) t - f) = min (f + sz) t from by omega] at hkey
      rw [hkey]
      congr 1
      omega

/-- Helper: every page `gpftAux` emits has size at most `sz`. -/
theorem gpftAux_size_le (sz : Nat) :
    ∀ (fuel f t : Nat), ∀ p ∈ gpftAux sz fuel f t, p.size ≤ sz := by
  intro fuel
  induction fuel with
  | zero => intro f t p hp; simp [gpftAux] at hp
  | succ n ih =>
    intro f t p hp
    rw [gpftAux] at hp
    by_cases hcond : sz = 0 ∨ t ≤ f
    · simp [hcond] at hp
    · rw [if_neg hcond] at hp
      simp only [List.mem_cons] at hp
      rcases hp with rfl | hp
      · show min (f + sz) t - f ≤ sz
        omega
      · exact ih (min (f + sz) t) t p hp

/-- Helper: the final page of `gpftAux` holds the remainder
`(t - f) mod sz`, or a full `sz` when `sz` divides `t - f`. -/
theorem gpftAux_last (sz : Nat) (hsz : 0 < sz) :
    ∀ (fuel f t : Nat), t - f ≤ fuel → f < t →
    ((gpftAux sz fuel f t).getLast?).map Pagination.size
      = some (if (t - f) % sz = 0 then sz else (t - f) % sz) := by
  intro fuel
  induction fuel with
  | zero => intro f t hn hft; omega
  | succ n ih =>
    intro f t hn hft
    have hcond : ¬ (sz = 0 ∨ t ≤ f) := by omega
    rw [gpftAux, if_neg hcond]
    by_cases hend : t ≤ f + sz
    · have hnt : min (f + sz) t = t := by omega
      rw [hnt]
      have htail : gpftAux sz n t t = [] := by
        cases n <;> simp [gpftAux]
      rw [htail, List.getLast?_singleton]
      rcases Nat.lt_or_ge (t - f) sz with hlt | hge
      · have hmod : (t - f) % sz = t - f := Nat.mod_eq_of_lt hlt
        have hne : ¬ t - f = 0 := by omega
        simp [hmod, hne]
      · have heq : t - f = sz := by omega
        simp [heq, Nat.mod_self]
    · have hnt : min (f + sz) t = f + sz := by omega
      rw [hnt]
      have hih := ih (f + sz) t (by omega) (by omega)
      have hne : gpftAux sz n (f + sz) t ≠ [] := by
        intro hnil
        rw [hnil] at hih
        simp at hih
      obtain ⟨x, xs, hxs⟩ := List.exists_cons_of_ne_nil hne
      rw [hxs, List.getLast?_cons_cons, ← hxs, hih]
      have hsub : t - f = (t - (f + sz)) + sz := by omega
      rw [hsub, Nat.add_mod_right]

/-- C2: for every `N > 0` and page size `P > 0`, the page list returned
by `getPaginatedFromAndTo 0 N P` covers `[0, N)` exactly — its ranges
concatenate, in order, to `[0, ..., N-1]`, so they are pairwise
disjoint with union `[0, N)` — every page size is at most `P`, the final
page's size is `N mod P` (or `P` when `P` divides `N`), and
`N = 1500, P = 1000` yields exactly `[(0, 1000), (1000, 500)]`. -/
theorem computePages_spec (N P : Nat) (hN : 0 < N) (hP : 0 < P) :
    ((getPaginatedFromAndTo 0 N P).map fun p => List.range' p.pFrom p.size).flatten
      = List.range N
    ∧ (∀ p ∈ getPaginatedFromAndTo 0 N P, p.size ≤ P)
    ∧ ((getPaginatedFromAndTo 0 N P).getLast?).map Pagination.size
        = some (if N % P = 0 then P else N % P)
    ∧ getPaginatedFromAndTo 0 1500 1000 = [⟨0, 1000, 1000⟩, ⟨1000, 1500, 500⟩] := by
  refine ⟨?_, ?_, ?_, by decide⟩
  · have h := gpftAux_flatten P hP (N - 0) 0 N (by omega)
    rw [List.range_eq_range']
    simpa using h
  · exact fun p hp => gpftAux_size_le P (N - 0) 0 N p hp
  · have h := gpftAux_last P hP (N - 0) 0 N (by omega) hN
    simpa using h

/-! ## Batching lemmas -/

/-- Helper: chunking joins back to the original list. -/
theorem chunkListAux_flatten (n : Nat) (hn : 0 < n) :
    ∀ (fuel : Nat) (xs : List α), xs.length ≤ fuel →
      (chunkListAux n fuel xs).flatten = xs := by
  intro fuel
  induction fuel with
  | zero =>
    intro xs h
    cases xs with
    | nil => simp [chunkListAux]
    | cons x ys => simp at h
  | succ m ih =>
    intro xs h
    cases xs with
    | nil => simp [chunkListAux]
    | cons x ys =>
      rw [chunkListAux, if_neg (by omega)]
      simp only [List.flatten_cons]
      simp only [List.length_cons] at h
      rw [ih ((x :: ys).drop n)
        (by simp only [List.length_drop, List.length_cons]; omega)]
      exact List.take_append_drop n (x :: ys)

/-- Helper: the number of chunks is the ceiling of `length / n`. -/
theorem chunkListAux_length (n : Nat) (hn : 0 < n) :
    ∀ (fuel : Nat) (xs : List α), xs.length ≤ fuel →
      (chunkListAux n fuel xs).length = (xs.length + n - 1) / n := by
  intro fuel
  induction fuel with
  | zero =>
    intro xs h
    cases xs with
    | nil => simp [chunkListAux, Nat.div_eq_of_lt (by omega : n - 1 < n)]
    | cons x ys => simp at h
  | succ m ih =>
    intro xs h
    cases xs with
    | nil => simp [chunkListAux, Nat.div_eq_of_lt (by omega : n - 1 < n)]
    | cons x ys =>
      rw [chunkListAux, if_neg (by omega)]
      simp only [List.length_cons] at h
      rw [List.length_cons, ih ((x :: ys).drop n)
        (by simp only [List.length_drop, List.length_cons]; omega)]
      simp only [List.length_drop, List.length_cons]
      rcases Nat.le_total (ys.length + 1) n with hle | hge
      · have h1 : ys.length + 1 - n = 0 := by omega
        rw [h1]
        have h2 : (0 + n - 1) / n = 0 := by
          rw [Nat.zero_add]
          exact Nat.div_eq_of_lt (by omega)
        rw [h2]
        exact (Nat.div_eq_of_lt_le (by omega) (by omega)).symm
      · have h3 : ys.length + 1 + n - 1 = (ys.length + 1 - n + n - 1) + n := by omega
        rw [h3, Nat.add_div_right _ hn]

/-- Helper: reading a key after `pushKey` appends to that key only. -/
theorem valuesOf_pushKey (acc : List (String × List α)) (k : String) (v : α) (m : String) :
    valuesOf (pushKey acc k v) m
      = if k = m then valuesOf acc m ++ [v] else valuesOf acc m := by
  unfold valuesOf pushKey
  rw [lookupList_setKey]
  by_cases h : k = m <;> simp [h]

/-- Helper: folding decoded batch elements into the per-market record
appends, per market, exactly the decoded values of that market's pairs
in their original order. -/
theorem foldStep_valuesOf (g : String × String → Option E) :
    ∀ (xs : List (String × String)) (acc : List (String × List E)) (m : String),
      valuesOf (xs.foldl (fun acc2 pr =>
        match g pr with
        | some v => pushKey acc2 pr.2 v
        | none => acc2) acc) m
        = valuesOf acc m ++ (xs.filter fun pr => pr.2 = m).filterMap g := by
  intro xs
  induction xs with
  | nil => intro acc m; simp
  | cons pr xs ih =>
    intro acc m
    simp only [List.foldl_cons]
    cases hg : g pr with
    | none =>
      rw [ih]
      by_cases hm : pr.2 = m <;>
        simp [List.filter_cons, hm, List.filterMap_cons, hg]
    | some v =>
      rw [ih, valuesOf_pushKey]
      by_cases hm : pr.2 = m
      · simp [hm, List.filter_cons, List.filterMap_cons, hg, List.append_assoc]
      · have hm' : ¬ pr.2 = m := hm
        simp [List.filter_cons, hm', List.filterMap_cons, hg]

/-- Helper: the batching engine reassembles, per market, exactly the
decoded values of that market's (address, market) pairs in order —
batch splitting neither drops, reorders nor misassociates results. -/
theorem runEntityBatches_valuesOf (g : String × String → Option E)
    (xs : List (String × String)) (m : String) :
    valuesOf (runEntityBatches g xs) m = (xs.filter fun pr => pr.2 = m).filterMap g := by
  have h1 : (chunkList MAX_ENTITY_PAGE_CALLS xs).flatten = xs :=
    chunkListAux_flatten MAX_ENTITY_PAGE_CALLS (by decide) xs.length xs (Nat.le_refl _)
  have hflat := List.foldl_flatten
    (fun acc2 pr =>
      match g pr with
      | some v => pushKey acc2 pr.2 v
      | none => acc2)
    ([] : List (String × List E)) (chunkList MAX_ENTITY_PAGE_CALLS xs)
  unfold runEntityBatches
  rw [← hflat, h1, foldStep_valuesOf]
  simp [valuesOf, lookupList]

/-- Helper: a market absent from the record contributes nothing to the
flattened pair list. -/
theorem flattenAddresses_filter_nil (abm : List (String × List String)) (m : String)
    (h : m ∉ abm.map Prod.fst) :
    (flattenAddresses abm).filter (fun pr => pr.2 = m) = [] := by
  induction abm with
  | nil => simp [flattenAddresses]
  | cons p rest ih =>
    simp only [List.map_cons, List.mem_cons, not_or] at h
    rw [flattenAddresses, List.flatMap_cons, List.filter_append]
    have hne : ¬ p.1 = m := fun hh => h.1 hh.symm
    have h1 : (p.2.map fun a => (a, p.1)).filter (fun pr => pr.2 = m) = [] := by
      rw [List.filter_map]
      have hfun : ((fun pr => decide (pr.2 = m)) ∘ fun a => ((a : String), p.1))
          = fun _ => false := by
        funext a
        simp [Function.comp, hne]
      rw [hfun]
      simp
    rw [h1]
    simpa [flattenAddresses] using ih h.2

/-- Helper: with distinct market keys, filtering the flattened pair list
by market `m` recovers exactly `m`'s addresses in order. -/
theorem flattenAddresses_filter (abm : List (String × List String)) (m : String)
    (addrs : List String) (hnd : (abm.map Prod.fst).Nodup) (hmem : (m, addrs) ∈ abm) :
    (flattenAddresses abm).filter (fun pr => pr.2 = m) = addrs.map fun a => (a, m) := by
  induction abm with
  | nil => simp at hmem
  | cons p rest ih =>
    simp only [List.map_cons, List.nodup_cons] at hnd
    obtain ⟨hp, hnd'⟩ := hnd
    rw [flattenAddresses, List.flatMap_cons, List.filter_append]
    rcases List.mem_cons.mp hmem with heq | hmem'
    · subst heq
      have h1 : (addrs.map fun a => (a, m)).filter (fun pr => pr.2 = m)
          = addrs.map fun a => (a, m) := by
        rw [List.filter_map]
        have : ((fun pr => decide (pr.2 = m)) ∘ fun a => ((a : String), m))
            = fun _ => true := by
          funext a
          simp [Function.comp]
        rw [this]
        simp
      have h2 : (flattenAddresses rest).filter (fun pr => pr.2 = m) = [] :=
        flattenAddresses_filter_nil rest m hp
      rw [h1]
      simpa [flattenAddresses] using h2
    · have hm : m ∈ rest.map Prod.fst := List.mem_map.mpr ⟨(m, addrs), hmem', rfl⟩
      have hkm : ¬ p.1 = m := fun hh => hp (hh ▸ hm)
      have h1 : (p.2.map fun a => (a, p.1)).filter (fun pr => pr.2 = m) = [] := by
        rw [List.filter_map]
        have : ((fun pr => decide (pr.2 = m)) ∘ fun a => ((a : String), p.1))
            = fun _ => false := by
          funext a
          simp [Function.comp, hkm]
        rw [this]
        simp
      rw [h1]
      simpa [flattenAddresses] using ih hnd' hmem'

/-- C6: for `K` (address, market) pairs and the call-batch limit
`MAX_ENTITY_PAGE_CALLS`, the entity fetch issues exactly
`⌈K / limit⌉` aggregate calls (one per chunk), and each decoded result
is associated with the pair that produced the call: the per-market
output of `getPositionsByAddresses` is exactly that market's address
list mapped through the decoder, and of `getOrdersByAddresses` exactly
the off-chain-flagged subset, in original address order. -/
theorem fetchEntities_batching (abm : List (String × List String))
    (fetchP : String → String → PositionResp) (fetchO : String → String → DelayedOrderResp)
    (ts : Nat) (m : String) (addrs : List String)
    (hnd : (abm.map Prod.fst).Nodup) (hmem : (m, addrs) ∈ abm) :
    (chunkList MAX_ENTITY_PAGE_CALLS (flattenAddresses abm)).length
      = ((flattenAddresses abm).length + MAX_ENTITY_PAGE_CALLS - 1) / MAX_ENTITY_PAGE_CALLS
    ∧ valuesOf (getPositionsByAddresses abm fetchP ts) m
        = addrs.map (fun a => decodePosition a (fetchP a m) ts)
    ∧ valuesOf (getOrdersByAddresses abm fetchO) m
        = addrs.filterMap (fun a =>
            if (fetchO a m).isOffchain then some (decodeDelayedOrder a (fetchO a m))
            else none) := by
  refine ⟨?_, ?_, ?_⟩
  · exact chunkListAux_length MAX_ENTITY_PAGE_CALLS (by decide) _ _ (Nat.le_refl _)
  · unfold getPositionsByAddresses
    rw [runEntityBatches_valuesOf, flattenAddresses_filter abm m addrs hnd hmem,
      List.filterMap_map]
    have hfun : ((fun pr : String × String =>
        some (decodePosition pr.1 (fetchP pr.1 pr.2) ts)) ∘ fun a => (a, m))
        = some ∘ fun a => decodePosition a (fetchP a m) ts := by
      funext a
      rfl
    rw [hfun, List.filterMap_eq_map]
  · unfold getOrdersByAddresses
    rw [runEntityBatches_valuesOf, flattenAddresses_filter abm m addrs hnd hmem,
      List.filterMap_map]
    have hfun : ((fun pr : String × String =>
        if (fetchO pr.1 pr.2).isOffchain
        then some (decodeDelayedOrder pr.1 (fetchO pr.1 pr.2)) else none) ∘ fun a => (a, m))
        = fun a => if (fetchO a m).isOffchain
            then some (decodeDelayedOrder a (fetchO a m)) else none := by
      funext a
      rfl
    rw [hfun]

/-- C6 witness: two markets, three pairs, constant oracles. -/
theorem fetchEntities_batching_w :
    (chunkList MAX_ENTITY_PAGE_CALLS
        (flattenAddresses [("m1", ["a", "b"]), ("m2", ["c"])])).length
      = ((flattenAddresses [("m1", ["a", "b"]), ("m2", ["c"])]).length
          + MAX_ENTITY_PAGE_CALLS - 1) / MAX_ENTITY_PAGE_CALLS
    ∧ valuesOf (getPositionsByAddresses [("m1", ["a", "b"]), ("m2", ["c"])]
          (fun _ _ => ⟨9, 4, 2, 6⟩) 77) "m1"
        = ["a", "b"].map (fun a => decodePosition a ⟨9, 4, 2, 6⟩ 77)
    ∧ valuesOf (getOrdersByAddresses [("m1", ["a", "b"]), ("m2", ["c"])]
          (fun _ _ => ⟨true, 5, 6⟩)) "m1"
        = ["a", "b"].filterMap (fun a =>
            if (⟨true, 5, 6⟩ : DelayedOrderResp).isOffchain
            then some (decodeDelayedOrder a ⟨true, 5, 6⟩) else none) :=
  fetchEntities_batching [("m1", ["a", "b"]), ("m2", ["c"])]
    (fun _ _ => ⟨9, 4, 2, 6⟩) (fun _ _ => ⟨true, 5, 6⟩) 77 "m1" ["a", "b"]
    (by decide) (by decide)

/-- Helper: the count-collection fold appends exactly the positive-count
markets in key order. -/
theorem lengthFold (count : String → Nat) :
    ∀ (keys : List String) (acc : List (String × Nat)),
      keys.Nodup → (∀ k ∈ keys, k ∉ acc.map Prod.fst) →
      keys.foldl (fun acc2 mk => if 0 < count mk then setKey acc2 mk (count mk) else acc2) acc
        = acc ++ (keys.filter fun mk => 0 < count mk).map (fun mk => (mk, count mk)) := by
  intro keys
  induction keys with
  | nil => intro acc _ _; simp
  | cons k ks ih =>
    intro acc hnd hdis
    simp only [List.foldl_cons]
    rcases List.nodup_cons.mp hnd with ⟨hk, hnd'⟩
    by_cases h0 : 0 < count k
    · rw [if_pos h0, setKey_of_not_mem acc k (count k) (hdis k (by simp))]
      rw [ih (acc ++ [(k, count k)]) hnd' ?_]
      · simp [List.filter_cons, h0]
      · intro k' hk'
        simp only [List.map_append, List.mem_append, not_or]
        refine ⟨hdis k' (by simp [hk']), ?_⟩
        simp only [List.map_cons, List.map_nil, List.mem_singleton]
        exact fun h => hk (h ▸ hk')
    · rw [if_neg h0, ih acc hnd' (fun k' hk' => hdis k' (by simp [hk']))]
      simp [List.filter_cons, h0]

/-- C7: the count fetch returns exactly the positive-count markets, in
key order, each mapped to its count; a market appears in the result iff
it is a queried market with nonzero count; counts `A:0, B:1500, C:3`
yield exactly `{B:1500, C:3}`. -/
theorem fetchCounts_omits_zero (marketKeys : List String) (count : String → Nat)
    (m : String) (hnd : marketKeys.Nodup) :
    getAddressLengthByMarket marketKeys count
      = (marketKeys.filter fun mk => 0 < count mk).map (fun mk => (mk, count mk))
    ∧ (m ∈ (getAddressLengthByMarket marketKeys count).map Prod.fst
        ↔ m ∈ marketKeys ∧ 0 < count m)
    ∧ getAddressLengthByMarket ["A", "B", "C"]
        (fun mk => if mk = "B" then 1500 else if mk = "C" then 3 else 0)
        = [("B", 1500), ("C", 3)] := by
  have h1 : getAddressLengthByMarket marketKeys count
      = (marketKeys.filter fun mk => 0 < count mk).map (fun mk => (mk, count mk)) := by
    unfold getAddressLengthByMarket
    simpa using lengthFold count marketKeys [] hnd (by simp)
  refine ⟨h1, ?_, by decide⟩
  rw [h1]
  simp only [List.map_map, List.mem_map, List.mem_filter, Function.comp]
  constructor
  · rintro ⟨a, ⟨ha, hc⟩, rfl⟩
    exact ⟨ha, by simpa using hc⟩
  · rintro ⟨hm, hc⟩
    exact ⟨m, ⟨hm, by simpa using hc⟩, rfl⟩

/-- C7 witness: the claim's own example. -/
theorem fetchCounts_omits_zero_w :
    getAddressLengthByMarket ["A", "B", "C"]
        (fun mk => if mk = "B" then 1500 else if mk = "C" then 3 else 0)
      = (["A", "B", "C"].filter fun mk =>
          0 < (if mk = "B" then 1500 else if mk = "C" then 3 else 0)).map
          (fun mk => (mk, if mk = "B" then 1500 else if mk = "C" then 3 else 0))
    ∧ ("B" ∈ (getAddressLengthByMarket ["A", "B", "C"]
          (fun mk => if mk = "B" then 1500 else if mk = "C" then 3 else 0)).map Prod.fst
        ↔ "B" ∈ ["A", "B", "C"]
          ∧ 0 < (if "B" = "B" then 1500 else if ("B" : String) = "C" then 3 else 0))
    ∧ getAddressLengthByMarket ["A", "B", "C"]
        (fun mk => if mk = "B" then 1500 else if mk = "C" then 3 else 0)
        = [("B", 1500), ("C", 3)] :=
  fetchCounts_omits_zero ["A", "B", "C"]
    (fun mk => if mk = "B" then 1500 else if mk = "C" then 3 else 0) "B" (by decide)

/-- C2 witness: the claim's own example `N = 1500`, `P = 1000`. -/
theorem computePages_spec_w :
    ((getPaginatedFromAndTo 0 1500 1000).map fun p => List.range' p.pFrom p.size).flatten
      = List.range 1500
    ∧ (∀ p ∈ getPaginatedFromAndTo 0 1500 1000, p.size ≤ 1000)
    ∧ ((getPaginatedFromAndTo 0 1500 1000).getLast?).map Pagination.size
        = some (if 1500 % 1000 = 0 then 1000 else 1500 % 1000)
    ∧ getPaginatedFromAndTo 0 1500 1000 = [⟨0, 1000, 1000⟩, ⟨1000, 1500, 500⟩] :=
  computePages_spec 1500 1000 (by decide) (by decide)

end Utils
